import Mathlib

/-
Verification of the curve-frame builder in `src/script/set_FS_frame.py`.

The script is floating-point numpy code; we embed it over the exact reals.
3-vectors (numpy rows) become the structure `Vec3`, numpy arrays become
`List Vec3`, and numpy's elementwise operations become the corresponding
componentwise functions below.  `np.linalg.norm` is `Real.sqrt` of the sum
of squares, and numpy's row-wise division `a / norms[:, None]` is the
componentwise `vdiv`.  Division by zero is the real-field convention
`x / 0 = 0` (numpy would produce NaN there; the theorems below either
assume the divisor is nonzero or, for the degenerate cases, show that the
result is not a unit vector either way).

`scipy.interpolate.CubicSpline` is external library code; `interpolate_line`
is therefore parameterized by the spline evaluator `spl`, and theorems that
need it assume only its documented interpolation property (the fitted curve
passes through the knots).  The `Except.error` branch models the
`ValueError` that `CubicSpline` raises when the parameter sequence is not
strictly increasing or has fewer than two knots.
-/

noncomputable section
open Classical

/-- A 3d point / vector, one row of a numpy `(n, 3)` array. -/
@[ext]
structure Vec3 where
  x : ℝ
  y : ℝ
  z : ℝ

/-- The zero vector. -/
def vzero : Vec3 := ⟨0, 0, 0⟩

/-- Componentwise addition of rows. -/
def vadd (a b : Vec3) : Vec3 := ⟨a.x + b.x, a.y + b.y, a.z + b.z⟩

/-- Componentwise subtraction of rows. -/
def vsub (a b : Vec3) : Vec3 := ⟨a.x - b.x, a.y - b.y, a.z - b.z⟩

/-- Scalar multiple of a row. -/
def vsmul (r : ℝ) (v : Vec3) : Vec3 := ⟨r * v.x, r * v.y, r * v.z⟩

/-- Division of a row by a scalar, numpy's `v / r`. -/
def vdiv (v : Vec3) (r : ℝ) : Vec3 := ⟨v.x / r, v.y / r, v.z / r⟩

/-- Dot product, `np.dot` on 3-vectors. -/
def vdot (a b : Vec3) : ℝ := a.x * b.x + a.y * b.y + a.z * b.z

/-- Cross product, `np.cross` on 3-vectors. -/
def vcross (a b : Vec3) : Vec3 :=
  ⟨a.y * b.z - a.z * b.y, a.z * b.x - a.x * b.z, a.x * b.y - a.y * b.x⟩

/-- Squared Euclidean norm of a row. -/
def normSq (v : Vec3) : ℝ := vdot v v

/-- Euclidean norm, `np.linalg.norm` of a row. -/
def vnorm (v : Vec3) : ℝ := Real.sqrt (normSq v)

/-- `v / np.linalg.norm(v)`, the normalization step used throughout the script. -/
def vnormalize (v : Vec3) : Vec3 := vdiv v (vnorm v)

/-- Sum of a list of rows (used to form `np.mean(..., axis=0)`). -/
def vsum : List Vec3 → Vec3
  | [] => vzero
  | v :: vs => vadd v (vsum vs)

/-- `np.mean(rows, axis=0)`: the componentwise sum divided by the row count. -/
def vmean (l : List Vec3) : Vec3 := vdiv (vsum l) (l.length : ℝ)

/-- `np.pad(l, ((p, p), (0, 0)), mode='edge')`: replicate the first row `p`
times in front and the last row `p` times at the back. -/
def padEdge (l : List Vec3) (p : ℕ) : List Vec3 :=
  match l with
  | [] => []
  | a :: _ => List.replicate p a ++ l ++ List.replicate p (l.getLastD vzero)

/-- The slice `padded[i : i + w]` of the padded array. -/
def windowAt (w : ℕ) (padded : List Vec3) (i : ℕ) : List Vec3 :=
  (padded.drop i).take w

/-- The in-place update loop of one smoothing pass
(`set_FS_frame.py` lines 14-15): the padded array is built once from the
incoming vectors, then `smoothed_vectors[i]` is overwritten, index by index,
with the mean of `padded_vectors[i : i + window_size]`. -/
def smooth_pass_loop (w : ℕ) (l : List Vec3) : List Vec3 :=
  (List.range l.length).foldl
    (fun s i => s.set i (vmean (windowAt w (padEdge l (w / 2)) i))) l

/-- One full smoothing pass (`set_FS_frame.py` lines 9-19): the window-mean
loop followed by row-wise renormalization. -/
def smooth_pass (w : ℕ) (l : List Vec3) : List Vec3 :=
  (smooth_pass_loop w l).map vnormalize

/-- `smooth_vectors(vectors, window_size, passes)` from `set_FS_frame.py`
lines 5-21 (the script always calls it with the defaults
`window_size = 10`, `passes = 1`). -/
def smooth_vectors (vectors : List Vec3) (window_size passes : ℕ) : List Vec3 :=
  (smooth_pass window_size)^[passes] vectors

/-- Modelled from the spec (section 4.4) for the refinement claim about
`smooth_vectors`: each pass pads the sequence at both ends by
edge-replication of length `window/2`, replaces each vector by the mean of
the window-sized neighborhood of the padded sequence starting at that
index, then renormalizes every vector; repeated for the configured number
of passes. -/
def smooth_pass_spec (w : ℕ) (l : List Vec3) : List Vec3 :=
  match l with
  | [] => []
  | a :: _ =>
    ((List.range l.length).map (fun i =>
      vmean ((((List.replicate (w / 2) a ++ l ++
        List.replicate (w / 2) (l.getLastD vzero)).drop i).take w)))).map vnormalize

/-- Modelled from the spec (section 4.4): the whole smoothing procedure as a
pure batch map, iterated for the configured number of passes. -/
def smooth_vectors_spec (vectors : List Vec3) (window_size passes : ℕ) : List Vec3 :=
  (smooth_pass_spec window_size)^[passes] vectors

/-- The norms of the consecutive segments of a polyline,
`np.linalg.norm(np.diff(points, axis=0), axis=1)`. -/
def segNorms (points : List Vec3) : List ℝ :=
  List.zipWith (fun a b => vnorm (vsub b a)) points points.tail

/-- `np.cumsum(np.r_[0, segNorms])`: cumulative chordal distance along the
polyline, starting at 0 (`set_FS_frame.py` line 32). -/
def cumdist (points : List Vec3) : List ℝ :=
  List.scanl (fun a d => a + d) 0 (segNorms points)

/-- `np.linspace(a, b, n)` with `endpoint=True`. -/
def linspace (a b : ℝ) (n : ℕ) : List ℝ :=
  if n = 1 then [a]
  else (List.range n).map (fun i : ℕ => a + (b - a) * (i : ℝ) / ((n : ℝ) - 1))

/-- The normalized arclength parameter values `distance / distance[-1]`
(`set_FS_frame.py` line 34), used as the knots of the cubic-spline fit.
`interpolate_line` below is parameterized by the spline evaluator
`spl knots values t` (scipy's `CubicSpline(knots, values)(t)`, external
library code); its error branch models the `ValueError` scipy raises while
fitting when the knot sequence has fewer than two entries or is not
strictly increasing (which is what happens for fewer than 2 input points
or coincident consecutive points with positive total length). -/
def dnKnots (points : List Vec3) : List ℝ :=
  (cumdist points).map (fun d => d / (cumdist points).getLastD 0)

/-- `interpolate_line(points, num_points)` from `set_FS_frame.py` lines
25-47; see the comment above `dnKnots` for the modelling of the scipy
error path. -/
def interpolate_line (spl : List ℝ → List ℝ → ℝ → ℝ)
    (points : List Vec3) (num_points : Option ℕ) : Except String (List Vec3) :=
  if points.length < 2 ∨ ¬ List.Chain' (fun a b => a < b) (dnKnots points) then
    Except.error "x must be strictly increasing"
  else
    Except.ok ((linspace 0 1 (num_points.getD points.length)).map (fun t =>
      ⟨spl (dnKnots points) (points.map Vec3.x) t,
       spl (dnKnots points) (points.map Vec3.y) t,
       spl (dnKnots points) (points.map Vec3.z) t⟩))

/-- `np.diff(pts, axis=0)`: consecutive forward differences. -/
def diffs (pts : List Vec3) : List Vec3 :=
  List.zipWith (fun a b => vsub b a) pts pts.tail

/-- The unnormalized tangents of `compute_tangent_vectors`
(`set_FS_frame.py` lines 52-53): forward differences with the last row
repeated so the count matches the point count. -/
def rawTangents (pts : List Vec3) : List Vec3 :=
  diffs pts ++ [(diffs pts).getLastD vzero]

/-- Row-wise normalization `a / norms[:, None]`. -/
def normalizeAll (l : List Vec3) : List Vec3 := l.map vnormalize

/-- `compute_tangent_vectors` from `set_FS_frame.py` lines 50-58:
forward differences, last row repeated, row-wise normalization, then one
smoothing pass with the default window. -/
def compute_tangent_vectors (pts : List Vec3) : List Vec3 :=
  smooth_vectors (normalizeAll (rawTangents pts)) 10 1

/-- The unnormalized first normal of `compute_MRF`
(`set_FS_frame.py` line 66): `[t.y, -t.x, 0]`. -/
def mrfFirstRaw (t : Vec3) : Vec3 := ⟨t.y, -t.x, 0⟩

/-- One propagation step of `compute_MRF` (`set_FS_frame.py` lines 75-76):
project the previous normal onto the plane orthogonal to the current
tangent, then renormalize. -/
def mrfStep (n t : Vec3) : Vec3 :=
  vnormalize (vsub n (vsmul (vdot n t) t))

/-- The per-point normals of `compute_MRF` before the final smoothing
(`set_FS_frame.py` lines 64-76). -/
def mrfNormals (ts : List Vec3) : List Vec3 :=
  match ts with
  | [] => []
  | t0 :: rest => List.scanl mrfStep (vnormalize (mrfFirstRaw t0)) rest

/-- The per-point binormals of `compute_MRF` before the final smoothing:
`binormals[i] = np.cross(tangents[i], normals[i])`
(`set_FS_frame.py` lines 70 and 79). -/
def mrfBinormals (ts : List Vec3) : List Vec3 :=
  List.zipWith vcross ts (mrfNormals ts)

/-- `compute_MRF` from `set_FS_frame.py` lines 60-84: propagate the frame,
then smooth the normals and the binormals (default window and pass count). -/
def compute_MRF (ts : List Vec3) : List Vec3 × List Vec3 :=
  (smooth_vectors (mrfNormals ts) 10 1, smooth_vectors (mrfBinormals ts) 10 1)

/-- The vector fed to the normalization at step `j` of the propagation in
`compute_MRF`: for `j = 0` the constructed first normal, for `j + 1` the
projection of normal `j` onto the plane orthogonal to tangent `j + 1`. -/
def mrfRawVec (ts : List Vec3) : ℕ → Vec3
  | 0 => mrfFirstRaw (ts.getD 0 vzero)
  | j + 1 =>
    vsub ((mrfNormals ts).getD j vzero)
      (vsmul (vdot ((mrfNormals ts).getD j vzero) (ts.getD (j + 1) vzero))
        (ts.getD (j + 1) vzero))

/-- The rows of `compute_normal_vectors` before smoothing
(`set_FS_frame.py` lines 88-100).  The source sets rows of norm below
`1e-6` to NaN, divides every row by its norm, then overwrites the flagged
rows with the `[0, 0, 0]` placeholder; the net per-row effect is: zero
placeholder when the norm is below `1e-6`, normalization otherwise. -/
def normal_rows (tangents : List Vec3) : List Vec3 :=
  (diffs tangents ++ [(diffs tangents).getLastD vzero]).map
    (fun v => if vnorm v < 1 / 1000000 then vzero else vnormalize v)

/-- `compute_normal_vectors` from `set_FS_frame.py` lines 86-103. -/
def compute_normal_vectors (tangents : List Vec3) : List Vec3 :=
  smooth_vectors (normal_rows tangents) 10 1

/-- A concrete interpolant used to witness the spline hypotheses: looks the
query up among the knots and returns the matching value.  It satisfies the
interpolation property that scipy's `CubicSpline` guarantees. -/
def splWitness : List ℝ → List ℝ → ℝ → ℝ
  | x :: xs, y :: ys, t => if t = x then y else splWitness xs ys t
  | _, _, _ => 0

/-- Nondegeneracy of one smoothing pass: no window mean collapses to the
zero vector (so every renormalization divides by a nonzero norm). -/
def passNondeg (w : ℕ) (l : List Vec3) : Prop :=
  ∀ i, i < l.length → normSq (vmean (windowAt w (padEdge l (w / 2)) i)) ≠ 0

/-- A 2-point straight segment. -/
def pts2 : List Vec3 := [⟨0, 0, 0⟩, ⟨1, 0, 0⟩]

/-- 11 points evenly spaced on the straight segment from the origin to
`(10, 0, 0)` (the straight-line scenario of the spec). -/
def pts9 : List Vec3 :=
  [⟨0, 0, 0⟩, ⟨1, 0, 0⟩, ⟨2, 0, 0⟩, ⟨3, 0, 0⟩, ⟨4, 0, 0⟩, ⟨5, 0, 0⟩,
   ⟨6, 0, 0⟩, ⟨7, 0, 0⟩, ⟨8, 0, 0⟩, ⟨9, 0, 0⟩, ⟨10, 0, 0⟩]

/-- Two unit tangents with a 3-4-5 turn between them. -/
def tsTurn : List Vec3 := [⟨1, 0, 0⟩, ⟨3 / 5, 4 / 5, 0⟩]

/-- A polyline with a duplicated consecutive point and positive total length. -/
def ptsDup : List Vec3 := [⟨0, 0, 0⟩, ⟨0, 0, 0⟩, ⟨1, 0, 0⟩]

theorem normSq_nonneg (v : Vec3) : 0 ≤ normSq v := by
  simp only [normSq, vdot]
  nlinarith [sq_nonneg v.x, sq_nonneg v.y, sq_nonneg v.z]

theorem vnorm_mul_self (v : Vec3) : vnorm v * vnorm v = normSq v :=
  Real.mul_self_sqrt (normSq_nonneg v)

theorem normSq_vdiv (v : Vec3) (r : ℝ) : normSq (vdiv v r) = normSq v / (r * r) := by
  simp only [normSq, vdiv, vdot]
  ring

theorem normSq_vnormalize (v : Vec3) (h : normSq v ≠ 0) : normSq (vnormalize v) = 1 := by
  rw [vnormalize, normSq_vdiv, vnorm_mul_self, div_self h]

theorem vnorm_eq_one (v : Vec3) (h : normSq v = 1) : vnorm v = 1 := by
  rw [vnorm, h, Real.sqrt_one]

theorem vnormalize_unit (v : Vec3) (h : normSq v = 1) : vnormalize v = v := by
  rw [vnormalize, vnorm_eq_one v h]
  ext <;> simp [vdiv]

theorem vdot_comm (a b : Vec3) : vdot a b = vdot b a := by
  simp only [vdot]
  ring

theorem vdot_vdiv_right (t v : Vec3) (r : ℝ) : vdot t (vdiv v r) = vdot t v / r := by
  simp only [vdot, vdiv]
  ring

theorem vdot_proj (t n : Vec3) (ht : normSq t = 1) :
    vdot t (vsub n (vsmul (vdot n t) t)) = 0 := by
  have h : vdot t (vsub n (vsmul (vdot n t) t)) = vdot t n - vdot n t * normSq t := by
    simp only [vdot, vsub, vsmul, normSq]
    ring
  rw [h, ht, mul_one, vdot_comm]
  exact sub_self _

theorem vdot_cross_left (t n : Vec3) : vdot t (vcross t n) = 0 := by
  simp only [vdot, vcross]
  ring

theorem vdot_cross_right (t n : Vec3) : vdot n (vcross t n) = 0 := by
  simp only [vdot, vcross]
  ring

theorem normSq_cross (t n : Vec3) :
    normSq (vcross t n) = normSq t * normSq n - vdot t n * vdot t n := by
  simp only [normSq, vdot, vcross]
  ring

theorem vdot_vnormalize_right (t v : Vec3) :
    vdot t (vnormalize v) = vdot t v / vnorm v := by
  rw [vnormalize, vdot_vdiv_right]

theorem foldl_set_eq (f : ℕ → Vec3) :
    ∀ (k : ℕ) (s : List Vec3), k ≤ s.length →
      (List.range k).foldl (fun a i => a.set i (f i)) s =
        (List.range k).map f ++ s.drop k := by
  intro k
  induction k with
  | zero => intro s _; simp
  | succ k ih =>
    intro s hk
    have hk' : k < s.length := hk
    rw [List.range_succ, List.foldl_append, ih s (Nat.le_of_succ_le hk)]
    rw [List.drop_eq_getElem_cons hk']
    simp only [List.foldl_cons, List.foldl_nil, List.map_append, List.map_cons, List.map_nil]
    simp [List.set_append]
    rw [List.drop_eq_getElem_cons hk']
    rfl

theorem smooth_pass_loop_eq_map (w : ℕ) (l : List Vec3) :
    smooth_pass_loop w l =
      (List.range l.length).map (fun i => vmean (windowAt w (padEdge l (w / 2)) i)) := by
  rw [smooth_pass_loop, foldl_set_eq _ l.length l le_rfl]
  simp

/-- C10: within each smoothing pass, the padded array is built once from
the incoming vectors and every window mean reads only that padded copy, so
the in-place update loop is equivalent to a pure batch map over the
pre-pass values. -/
theorem smooth_pass_loop_is_batch_map (w : ℕ) (l : List Vec3) :
    smooth_pass_loop w l =
      (List.range l.length).map (fun i => vmean (windowAt w (padEdge l (w / 2)) i)) :=
  smooth_pass_loop_eq_map w l

theorem smooth_pass_eq_spec (w : ℕ) (l : List Vec3) :
    smooth_pass w l = smooth_pass_spec w l := by
  cases l with
  | nil => simp [smooth_pass, smooth_pass_spec, smooth_pass_loop]
  | cons a rest =>
    rw [smooth_pass, smooth_pass_loop_eq_map]
    simp only [smooth_pass_spec, padEdge, windowAt]

theorem vnormalize_vzero : vnormalize vzero = vzero := by
  ext <;> simp [vnormalize, vdiv, vzero]

theorem length_smooth_pass (w : ℕ) (l : List Vec3) :
    (smooth_pass w l).length = l.length := by
  rw [smooth_pass, smooth_pass_loop_eq_map]
  simp

theorem length_smooth_vectors (v : List Vec3) (w p : ℕ) :
    (smooth_vectors v w p).length = v.length := by
  induction p with
  | zero => rfl
  | succ p ih =>
    rw [smooth_vectors, Function.iterate_succ_apply']
    rw [length_smooth_pass]
    exact ih

theorem vsum_replicate (k : ℕ) (v : Vec3) :
    vsum (List.replicate k v) = vsmul (k : ℝ) v := by
  induction k with
  | zero => ext <;> simp [vsum, vsmul, vzero]
  | succ k ih =>
    rw [List.replicate_succ]
    show vadd v (vsum (List.replicate k v)) = _
    rw [ih]
    ext <;> (simp [vadd, vsmul]; ring)

theorem vmean_replicate (k : ℕ) (v : Vec3) (hk : k ≠ 0) :
    vmean (List.replicate k v) = v := by
  have hk' : (k : ℝ) ≠ 0 := Nat.cast_ne_zero.mpr hk
  rw [vmean, List.length_replicate, vsum_replicate]
  ext <;> (simp [vdiv, vsmul]; field_simp)

theorem getLastD_replicate (m : ℕ) (v d : Vec3) (hm : m ≠ 0) :
    (List.replicate m v).getLastD d = v := by
  induction m with
  | zero => exact absurd rfl hm
  | succ m ih =>
    cases m with
    | zero => rfl
    | succ m => exact ih (Nat.succ_ne_zero m)

theorem padEdge_replicate (m p : ℕ) (v : Vec3) (hm : m ≠ 0) :
    padEdge (List.replicate m v) p = List.replicate (m + 2 * p) v := by
  obtain ⟨m', rfl⟩ : ∃ m', m = m' + 1 := ⟨m - 1, (Nat.succ_pred_eq_of_pos (Nat.pos_of_ne_zero hm)).symm⟩
  rw [List.replicate_succ, padEdge]
  rw [← List.replicate_succ, getLastD_replicate _ _ _ (Nat.succ_ne_zero m')]
  rw [← List.replicate_add, ← List.replicate_add]
  congr 1
  omega

theorem smooth_pass_replicate (w m : ℕ) (v : Vec3) (hw : 1 ≤ w) (hv : normSq v = 1) :
    smooth_pass w (List.replicate m v) = List.replicate m v := by
  cases Nat.eq_zero_or_pos m with
  | inl hm => subst hm; simp [smooth_pass, smooth_pass_loop_eq_map]
  | inr hm =>
    rw [smooth_pass, smooth_pass_loop_eq_map, padEdge_replicate m (w / 2) v (Nat.pos_iff_ne_zero.mp hm)]
    simp only [List.length_replicate]
    have hwin : ∀ i ∈ List.range m,
        vnormalize (vmean (windowAt w (List.replicate (m + 2 * (w / 2)) v) i)) = v := by
      intro i hi
      have hi' : i < m := List.mem_range.mp hi
      rw [windowAt, List.drop_replicate, List.take_replicate]
      have hk : min w (m + 2 * (w / 2) - i) ≠ 0 := by
        have : 1 ≤ m + 2 * (w / 2) - i := by omega
        omega
      rw [vmean_replicate _ _ hk, vnormalize_unit v hv]
    rw [List.map_map]
    have hconst :
        List.map (vnormalize ∘ fun i => vmean (windowAt w (List.replicate (m + 2 * (w / 2)) v) i))
          (List.range m) = List.map (fun _ => v) (List.range m) :=
      List.map_congr_left (fun i hi => hwin i hi)
    rw [hconst]
    simp [List.map_const']

theorem smooth_vectors_replicate (w p m : ℕ) (v : Vec3) (hw : 1 ≤ w) (hv : normSq v = 1) :
    smooth_vectors (List.replicate m v) w p = List.replicate m v := by
  induction p with
  | zero => rfl
  | succ p ih =>
    rw [smooth_vectors, Function.iterate_succ_apply']
    rw [show (smooth_pass w)^[p] (List.replicate m v) = List.replicate m v from ih]
    exact smooth_pass_replicate w m v hw hv

/-- C6 (amended): smoothing always preserves the length of the sequence,
and whenever the final pass encounters no window mean that collapses to
the zero vector, every output vector is exactly unit length.  (When a mean
does collapse, the output row is not a unit vector: NaN in numpy, the zero
vector in this real-arithmetic model — see the counterexample.) -/
theorem smooth_vectors_length_and_unit (v : List Vec3) (w p : ℕ) (hp : 1 ≤ p)
    (hnd : passNondeg w ((smooth_pass w)^[p - 1] v)) :
    (smooth_vectors v w p).length = v.length ∧
      ∀ u ∈ smooth_vectors v w p, normSq u = 1 := by
  refine ⟨length_smooth_vectors v w p, ?_⟩
  intro u hu
  have hp' : p = (p - 1) + 1 := (Nat.succ_pred_eq_of_pos hp).symm
  rw [smooth_vectors, hp', Function.iterate_succ_apply'] at hu
  rw [smooth_pass, smooth_pass_loop_eq_map] at hu
  simp only [List.map_map, List.mem_map, List.mem_range, Function.comp] at hu
  obtain ⟨i, hi, rfl⟩ := hu
  exact normSq_vnormalize _ (hnd i hi)

/-- Witness for the amended C6 theorem at a concrete input. -/
theorem smooth_vectors_length_and_unit_witness :
    (smooth_vectors [⟨1, 0, 0⟩] 10 1).length = 1 ∧
      ∀ u ∈ smooth_vectors [⟨1, 0, 0⟩] 10 1, normSq u = 1 := by
  have hnd : passNondeg 10 ((smooth_pass 10)^[1 - 1] [⟨1, 0, 0⟩]) := by
    intro i hi
    simp only [show (1 : ℕ) - 1 = 0 from rfl, Function.iterate_zero_apply] at hi ⊢
    have hi' : i = 0 := by simpa using hi
    subst hi'
    have hwin : windowAt 10 (padEdge [(⟨1, 0, 0⟩ : Vec3)] (10 / 2)) 0 =
        List.replicate 10 (⟨1, 0, 0⟩ : Vec3) := by
      have hpe : padEdge [(⟨1, 0, 0⟩ : Vec3)] (10 / 2) =
          List.replicate 11 (⟨1, 0, 0⟩ : Vec3) := by
        rw [show [(⟨1, 0, 0⟩ : Vec3)] = List.replicate 1 (⟨1, 0, 0⟩ : Vec3) from rfl]
        rw [padEdge_replicate 1 (10 / 2) _ one_ne_zero]
      rw [hpe, windowAt, List.drop_replicate, List.take_replicate]
      rfl
    rw [hwin, vmean_replicate _ _ (by norm_num)]
    norm_num [normSq, vdot]
  exact smooth_vectors_length_and_unit [⟨1, 0, 0⟩] 10 1 le_rfl hnd

/-- C6 (counterexample): with the antipodal pair `(1,0,0)`, `(-1,0,0)` and
window size 2, the second window mean collapses to zero and the second
output vector of `smooth_vectors` is not a unit vector (numpy would yield
NaN; in this exact-arithmetic model it is the zero vector). -/
theorem smooth_vectors_unit_counterexample :
    ¬ ∀ u ∈ smooth_vectors [⟨1, 0, 0⟩, ⟨-1, 0, 0⟩] 2 1, vnorm u = 1 := by
  intro h
  have hpe : padEdge [(⟨1, 0, 0⟩ : Vec3), ⟨-1, 0, 0⟩] (2 / 2) =
      [⟨1, 0, 0⟩, ⟨1, 0, 0⟩, ⟨-1, 0, 0⟩, ⟨-1, 0, 0⟩] := by
    norm_num [padEdge]
  have hout : smooth_vectors [⟨1, 0, 0⟩, ⟨-1, 0, 0⟩] 2 1 = [⟨1, 0, 0⟩, vzero] := by
    rw [smooth_vectors, Function.iterate_one, smooth_pass, smooth_pass_loop_eq_map, hpe]
    have hr : (List.range ([(⟨1, 0, 0⟩ : Vec3), ⟨-1, 0, 0⟩].length)) = [0, 1] := rfl
    rw [hr]
    have hw0 : windowAt 2 [(⟨1, 0, 0⟩ : Vec3), ⟨1, 0, 0⟩, ⟨-1, 0, 0⟩, ⟨-1, 0, 0⟩] 0 =
        [⟨1, 0, 0⟩, ⟨1, 0, 0⟩] := rfl
    have hw1 : windowAt 2 [(⟨1, 0, 0⟩ : Vec3), ⟨1, 0, 0⟩, ⟨-1, 0, 0⟩, ⟨-1, 0, 0⟩] 1 =
        [⟨1, 0, 0⟩, ⟨-1, 0, 0⟩] := rfl
    simp only [List.map_cons, List.map_nil, hw0, hw1]
    have hm0 : vmean [(⟨1, 0, 0⟩ : Vec3), ⟨1, 0, 0⟩] = ⟨1, 0, 0⟩ := by
      ext <;> norm_num [vmean, vsum, vadd, vzero, vdiv]
    have hm1 : vmean [(⟨1, 0, 0⟩ : Vec3), ⟨-1, 0, 0⟩] = vzero := by
      ext <;> norm_num [vmean, vsum, vadd, vzero, vdiv]
    rw [hm0, hm1, vnormalize_vzero, vnormalize_unit _ (by norm_num [normSq, vdot])]
  have hz := h vzero (by rw [hout]; exact List.mem_cons_of_mem _ (List.mem_singleton.mpr rfl))
  rw [vnorm, show normSq vzero = 0 from by norm_num [normSq, vdot, vzero], Real.sqrt_zero] at hz
  exact zero_ne_one hz

/-- C5: `smooth_vectors` performs, for each of the configured passes,
edge-replication padding of length `window/2`, replacement of each vector
by the mean of the `window`-sized forward window of the padded sequence
starting at that index, and renormalization of every vector to unit
length. -/
theorem smooth_vectors_eq_spec (v : List Vec3) (w p : ℕ) :
    smooth_vectors v w p = smooth_vectors_spec v w p := by
  have h : smooth_pass w = smooth_pass_spec w := funext (smooth_pass_eq_spec w)
  rw [smooth_vectors, smooth_vectors_spec, h]

theorem getLastD_cons_eq_getD {α : Type} :
    ∀ (l : List α) (a d : α), (a :: l).getLastD d = (a :: l).getD l.length d := by
  intro l
  induction l with
  | nil => intro a d; rfl
  | cons b l' ih =>
    intro a d
    rw [List.getLastD_cons, ih b a, List.length_cons, List.getD_cons_succ]
    rw [List.getD_eq_getElem _ _ (by simp), List.getD_eq_getElem _ _ (by simp)]

theorem getLastD_eq_getD {α : Type} (l : List α) (d : α) (h : l ≠ []) :
    l.getLastD d = l.getD (l.length - 1) d := by
  cases l with
  | nil => exact absurd rfl h
  | cons a l' =>
    rw [getLastD_cons_eq_getD l' a d]
    congr 1

theorem length_diffs (pts : List Vec3) : (diffs pts).length = pts.length - 1 := by
  simp [diffs]

theorem diffs_getD (pts : List Vec3) (i : ℕ) (h : i + 1 < pts.length) :
    (diffs pts).getD i vzero = vsub (pts.getD (i + 1) vzero) (pts.getD i vzero) := by
  have h1 : i < (diffs pts).length := by rw [length_diffs]; omega
  have h2 : i < pts.tail.length := by simp; omega
  rw [List.getD_eq_getElem _ _ h1, List.getD_eq_getElem _ _ (by omega : i + 1 < pts.length),
    List.getD_eq_getElem _ _ (by omega : i < pts.length)]
  simp only [diffs, List.getElem_zipWith, List.getElem_tail]

theorem length_rawTangents (pts : List Vec3) (h : 1 ≤ pts.length) :
    (rawTangents pts).length = pts.length := by
  rw [rawTangents]
  simp [length_diffs]
  omega

theorem rawTangents_getD_lt (pts : List Vec3) (i : ℕ) (h : i + 1 < pts.length) :
    (rawTangents pts).getD i vzero = vsub (pts.getD (i + 1) vzero) (pts.getD i vzero) := by
  rw [rawTangents, List.getD_append _ _ _ _ (by rw [length_diffs]; omega)]
  exact diffs_getD pts i h

theorem rawTangents_getD_last (pts : List Vec3) (h : 2 ≤ pts.length) :
    (rawTangents pts).getD (pts.length - 1) vzero =
      (rawTangents pts).getD (pts.length - 2) vzero := by
  have hd : (diffs pts).length = pts.length - 1 := length_diffs pts
  have hne : diffs pts ≠ [] := by
    intro hnil
    rw [hnil] at hd
    simp at hd
    omega
  have hlast : (rawTangents pts).getD (pts.length - 1) vzero = (diffs pts).getLastD vzero := by
    rw [rawTangents, List.getD_append_right _ _ _ _ (by omega : (diffs pts).length ≤ pts.length - 1)]
    rw [hd]
    simp
  have hprev : (rawTangents pts).getD (pts.length - 2) vzero =
      (diffs pts).getD (pts.length - 2) vzero := by
    rw [rawTangents, List.getD_append _ _ _ _ (by omega : pts.length - 2 < (diffs pts).length)]
  rw [hlast, hprev, getLastD_eq_getD _ _ hne, hd]
  rfl

theorem normalizeAll_getD (l : List Vec3) (i : ℕ) (h : i < l.length) :
    (normalizeAll l).getD i vzero = vnormalize (l.getD i vzero) := by
  rw [normalizeAll, List.getD_eq_getElem _ _ (by simpa using h), List.getD_eq_getElem _ _ h]
  rw [List.getElem_map]

/-- C3: for a polyline of `n >= 2` points without coincident consecutive
points, the tangent list of `compute_tangent_vectors` taken after
normalization and before smoothing has exactly `n` entries; entry `i` for
`i < n - 1` is the normalized forward difference `pts[i+1] - pts[i]`, the
last entry repeats the previous one, and every entry is exactly a unit
vector (so in particular within the `1e-6` tolerance); the final smoothed
output also has `n` entries. -/
theorem compute_tangent_vectors_presmooth (pts : List Vec3) (h2 : 2 ≤ pts.length)
    (hnc : ∀ i, i + 1 < pts.length →
      normSq (vsub (pts.getD (i + 1) vzero) (pts.getD i vzero)) ≠ 0) :
    (normalizeAll (rawTangents pts)).length = pts.length ∧
      (∀ i, i + 1 < pts.length →
        (normalizeAll (rawTangents pts)).getD i vzero =
          vnormalize (vsub (pts.getD (i + 1) vzero) (pts.getD i vzero))) ∧
      (normalizeAll (rawTangents pts)).getD (pts.length - 1) vzero =
        (normalizeAll (rawTangents pts)).getD (pts.length - 2) vzero ∧
      (∀ i, i < pts.length →
        normSq ((normalizeAll (rawTangents pts)).getD i vzero) = 1) ∧
      (compute_tangent_vectors pts).length = pts.length := by
  have hrlen : (rawTangents pts).length = pts.length := length_rawTangents pts (by omega)
  have hTlen : (normalizeAll (rawTangents pts)).length = pts.length := by
    rw [normalizeAll, List.length_map, hrlen]
  have hentry : ∀ i, i + 1 < pts.length →
      (normalizeAll (rawTangents pts)).getD i vzero =
        vnormalize (vsub (pts.getD (i + 1) vzero) (pts.getD i vzero)) := by
    intro i hi
    rw [normalizeAll_getD _ _ (by omega : i < (rawTangents pts).length)]
    rw [rawTangents_getD_lt pts i hi]
  have hlast : (normalizeAll (rawTangents pts)).getD (pts.length - 1) vzero =
      (normalizeAll (rawTangents pts)).getD (pts.length - 2) vzero := by
    rw [normalizeAll_getD _ _ (by omega : pts.length - 1 < (rawTangents pts).length),
      normalizeAll_getD _ _ (by omega : pts.length - 2 < (rawTangents pts).length)]
    rw [rawTangents_getD_last pts h2]
  refine ⟨hTlen, hentry, hlast, ?_, ?_⟩
  · intro i hi
    by_cases hlt : i + 1 < pts.length
    · rw [hentry i hlt]
      exact normSq_vnormalize _ (hnc i hlt)
    · have hieq : i = pts.length - 1 := by omega
      subst hieq
      rw [hlast]
      have hprev : pts.length - 2 + 1 < pts.length := by omega
      rw [hentry _ hprev]
      exact normSq_vnormalize _ (hnc _ hprev)
  · rw [compute_tangent_vectors, length_smooth_vectors, hTlen]

/-- Witness for the C3 theorem at the 2-point segment `pts2`. -/
theorem compute_tangent_vectors_presmooth_witness :
    (normalizeAll (rawTangents pts2)).length = pts2.length ∧
      (∀ i, i + 1 < pts2.length →
        (normalizeAll (rawTangents pts2)).getD i vzero =
          vnormalize (vsub (pts2.getD (i + 1) vzero) (pts2.getD i vzero))) ∧
      (normalizeAll (rawTangents pts2)).getD (pts2.length - 1) vzero =
        (normalizeAll (rawTangents pts2)).getD (pts2.length - 2) vzero ∧
      (∀ i, i < pts2.length →
        normSq ((normalizeAll (rawTangents pts2)).getD i vzero) = 1) ∧
      (compute_tangent_vectors pts2).length = pts2.length := by
  refine compute_tangent_vectors_presmooth pts2 (by norm_num [pts2]) ?_
  intro i hi
  have hi0 : i = 0 := by
    simp only [pts2, List.length_cons, List.length_nil] at hi
    omega
  subst hi0
  norm_num [pts2, List.getD_cons_succ, List.getD_cons_zero, vsub, normSq, vdot, vzero]

theorem scanl_getD_zero {α β : Type} (f : β → α → β) (c : β) (l : List α) (d : β) :
    (List.scanl f c l).getD 0 d = c := by
  cases l <;> simp [List.scanl_cons, List.scanl_nil]

theorem scanl_getD_succ {α β : Type} (f : β → α → β) (d : β) (d' : α) :
    ∀ (l : List α) (b : β) (j : ℕ), j < l.length →
      (List.scanl f b l).getD (j + 1) d =
        f ((List.scanl f b l).getD j d) (l.getD j d') := by
  intro l
  induction l with
  | nil =>
    intro b j hj
    simp at hj
  | cons a l' ih =>
    intro b j hj
    rw [List.scanl_cons, List.singleton_append]
    cases j with
    | zero =>
      rw [List.getD_cons_succ, List.getD_cons_zero, List.getD_cons_zero]
      exact scanl_getD_zero f (f b a) l' d
    | succ k =>
      have hk : k < l'.length := by
        simp at hj
        omega
      rw [List.getD_cons_succ, List.getD_cons_succ, List.getD_cons_succ]
      exact ih (f b a) k hk

theorem length_mrfNormals (ts : List Vec3) : (mrfNormals ts).length = ts.length := by
  cases ts with
  | nil => rfl
  | cons t0 rest => simp [mrfNormals, List.length_scanl]

theorem mrfNormals_getD_zero (t0 : Vec3) (rest : List Vec3) (d : Vec3) :
    (mrfNormals (t0 :: rest)).getD 0 d = vnormalize (mrfFirstRaw t0) := by
  rw [mrfNormals]
  exact scanl_getD_zero mrfStep _ rest d

theorem mrfNormals_getD_succ (ts : List Vec3) (j : ℕ) (h : j + 1 < ts.length) :
    (mrfNormals ts).getD (j + 1) vzero =
      mrfStep ((mrfNormals ts).getD j vzero) (ts.getD (j + 1) vzero) := by
  cases ts with
  | nil => simp at h
  | cons t0 rest =>
    have hj : j < rest.length := by
      simp at h
      omega
    rw [show mrfNormals (t0 :: rest) = List.scanl mrfStep (vnormalize (mrfFirstRaw t0)) rest
      from rfl]
    rw [scanl_getD_succ mrfStep vzero vzero rest _ j hj]
    rw [List.getD_cons_succ]

theorem mrfNormals_getD_eq_normalize (ts : List Vec3) (j : ℕ) (h : j < ts.length) :
    (mrfNormals ts).getD j vzero = vnormalize (mrfRawVec ts j) := by
  cases j with
  | zero =>
    cases ts with
    | nil => simp at h
    | cons t0 rest =>
      rw [mrfNormals_getD_zero t0 rest vzero]
      rfl
  | succ j =>
    rw [mrfNormals_getD_succ ts j h]
    rfl

theorem length_mrfBinormals (ts : List Vec3) : (mrfBinormals ts).length = ts.length := by
  simp [mrfBinormals, length_mrfNormals]

theorem mrfBinormals_getD (ts : List Vec3) (i : ℕ) (h : i < ts.length) :
    (mrfBinormals ts).getD i vzero =
      vcross (ts.getD i vzero) ((mrfNormals ts).getD i vzero) := by
  have h1 : i < (mrfBinormals ts).length := by rw [length_mrfBinormals]; exact h
  have h2 : i < (mrfNormals ts).length := by rw [length_mrfNormals]; exact h
  rw [List.getD_eq_getElem _ _ h1, List.getD_eq_getElem _ _ h, List.getD_eq_getElem _ _ h2]
  simp only [mrfBinormals, List.getElem_zipWith]

/-- C4: for every tangent sequence and every index `i >= 1`, the
pre-smoothing normal at `i` computed by `compute_MRF` is the renormalized
projection of normal `i - 1` onto the plane orthogonal to tangent `i`, and
the pre-smoothing binormal at `i` is the cross product of tangent `i` with
normal `i`. -/
theorem compute_MRF_step_formula (ts : List Vec3) (i : ℕ) (h1 : 1 ≤ i) (h2 : i < ts.length) :
    (mrfNormals ts).getD i vzero =
      vnormalize (vsub ((mrfNormals ts).getD (i - 1) vzero)
        (vsmul (vdot ((mrfNormals ts).getD (i - 1) vzero) (ts.getD i vzero))
          (ts.getD i vzero))) ∧
    (mrfBinormals ts).getD i vzero =
      vcross (ts.getD i vzero) ((mrfNormals ts).getD i vzero) := by
  obtain ⟨j, rfl⟩ : ∃ j, i = j + 1 := ⟨i - 1, by omega⟩
  refine ⟨?_, mrfBinormals_getD ts (j + 1) h2⟩
  rw [mrfNormals_getD_succ ts j h2]
  rw [show j + 1 - 1 = j from rfl]
  rfl

/-- Witness for the C4 theorem at the concrete tangent pair `tsTurn`, index 1. -/
theorem compute_MRF_step_formula_witness :
    (mrfNormals tsTurn).getD 1 vzero =
      vnormalize (vsub ((mrfNormals tsTurn).getD (1 - 1) vzero)
        (vsmul (vdot ((mrfNormals tsTurn).getD (1 - 1) vzero) (tsTurn.getD 1 vzero))
          (tsTurn.getD 1 vzero))) ∧
    (mrfBinormals tsTurn).getD 1 vzero =
      vcross (tsTurn.getD 1 vzero) ((mrfNormals tsTurn).getD 1 vzero) :=
  compute_MRF_step_formula tsTurn 1 le_rfl (by norm_num [tsTurn])

/-- C1 (amended): before the final smoothing step of `compute_MRF`, for
every sequence of unit tangents for which no normalization input
degenerates, tangent, normal and binormal are exactly orthonormal at every
point (in exact arithmetic the dot products are 0, well within the `1e-3`
tolerance, and the norms are exactly 1).  The `1e-3` bounds do not survive
the final smoothing step — see the counterexample. -/
theorem mrf_presmooth_orthonormal (ts : List Vec3) (i : ℕ) (hi : i < ts.length)
    (hunit : ∀ t ∈ ts, normSq t = 1)
    (hnd : ∀ j, j < ts.length → normSq (mrfRawVec ts j) ≠ 0) :
    vdot (ts.getD i vzero) ((mrfNormals ts).getD i vzero) = 0 ∧
    vdot (ts.getD i vzero) ((mrfBinormals ts).getD i vzero) = 0 ∧
    vdot ((mrfNormals ts).getD i vzero) ((mrfBinormals ts).getD i vzero) = 0 ∧
    normSq ((mrfNormals ts).getD i vzero) = 1 ∧
    normSq ((mrfBinormals ts).getD i vzero) = 1 := by
  have hmem : ts.getD i vzero ∈ ts := by
    rw [List.getD_eq_getElem _ _ hi]
    exact List.getElem_mem hi
  have htunit : normSq (ts.getD i vzero) = 1 := hunit _ hmem
  have hni : normSq ((mrfNormals ts).getD i vzero) = 1 := by
    rw [mrfNormals_getD_eq_normalize ts i hi]
    exact normSq_vnormalize _ (hnd i hi)
  have htn : vdot (ts.getD i vzero) ((mrfNormals ts).getD i vzero) = 0 := by
    cases i with
    | zero =>
      cases ts with
      | nil => simp at hi
      | cons t0 rest =>
        rw [mrfNormals_getD_zero t0 rest vzero, List.getD_cons_zero]
        rw [vnormalize, vdot_vdiv_right]
        have hz : vdot t0 (mrfFirstRaw t0) = 0 := by
          simp only [vdot, mrfFirstRaw]
          ring
        rw [hz, zero_div]
    | succ j =>
      rw [mrfNormals_getD_succ ts j hi, mrfStep, vnormalize, vdot_vdiv_right]
      rw [vdot_proj _ _ htunit, zero_div]
  have hbi : (mrfBinormals ts).getD i vzero =
      vcross (ts.getD i vzero) ((mrfNormals ts).getD i vzero) := mrfBinormals_getD ts i hi
  refine ⟨htn, ?_, ?_, hni, ?_⟩
  · rw [hbi]
    exact vdot_cross_left _ _
  · rw [hbi]
    exact vdot_cross_right _ _
  · rw [hbi, normSq_cross, htunit, hni, htn]
    ring

/-- Witness for the amended C1 theorem at the concrete unit-tangent pair
`tsTurn`, index 0. -/
theorem mrf_presmooth_orthonormal_witness :
    vdot (tsTurn.getD 0 vzero) ((mrfNormals tsTurn).getD 0 vzero) = 0 ∧
    vdot (tsTurn.getD 0 vzero) ((mrfBinormals tsTurn).getD 0 vzero) = 0 ∧
    vdot ((mrfNormals tsTurn).getD 0 vzero) ((mrfBinormals tsTurn).getD 0 vzero) = 0 ∧
    normSq ((mrfNormals tsTurn).getD 0 vzero) = 1 ∧
    normSq ((mrfBinormals tsTurn).getD 0 vzero) = 1 := by
  have hn0 : (mrfNormals tsTurn).getD 0 vzero = ⟨0, -1, 0⟩ := by
    rw [show tsTurn = (⟨1, 0, 0⟩ : Vec3) :: [⟨3 / 5, 4 / 5, 0⟩] from rfl]
    rw [mrfNormals_getD_zero]
    rw [show mrfFirstRaw (⟨1, 0, 0⟩ : Vec3) = ⟨0, -1, 0⟩ from by
      simp [mrfFirstRaw]]
    exact vnormalize_unit _ (by norm_num [normSq, vdot])
  refine mrf_presmooth_orthonormal tsTurn 0 (by norm_num [tsTurn]) ?_ ?_
  · intro t ht
    have h2 : t = ⟨1, 0, 0⟩ ∨ t = ⟨3 / 5, 4 / 5, 0⟩ := by
      simpa [tsTurn] using ht
    rcases h2 with rfl | rfl <;> norm_num [normSq, vdot]
  · intro j hj
    have hj2 : j = 0 ∨ j = 1 := by
      simp only [tsTurn, List.length_cons, List.length_nil] at hj
      omega
    rcases hj2 with rfl | rfl
    · rw [show mrfRawVec tsTurn 0 = mrfFirstRaw (tsTurn.getD 0 vzero) from rfl]
      norm_num [tsTurn, mrfFirstRaw, normSq, vdot]
    · rw [show mrfRawVec tsTurn 1 =
        vsub ((mrfNormals tsTurn).getD 0 vzero)
          (vsmul (vdot ((mrfNormals tsTurn).getD 0 vzero) (tsTurn.getD 1 vzero))
            (tsTurn.getD 1 vzero)) from rfl]
      rw [hn0]
      norm_num [tsTurn, vsub, vsmul, vdot, normSq]

/-- C1 (counterexample): `tsTurn` is a pair of exact unit tangents accepted
by `compute_MRF`, yet the smoothed normal returned for point 0 has
`|tangent . normal| >= 8/25 >> 1e-3`: the final smoothing of the normals
destroys the claimed orthogonality bound. -/
theorem compute_MRF_orthogonality_counterexample :
    ¬ |vdot (tsTurn.getD 0 vzero) ((compute_MRF tsTurn).1.getD 0 vzero)| < 1 / 1000 := by
  have hnorm1 : vnorm (⟨12 / 25, -9 / 25, 0⟩ : Vec3) = 3 / 5 := by
    rw [vnorm, show normSq (⟨12 / 25, -9 / 25, 0⟩ : Vec3) = (3 / 5) ^ 2 from by
      norm_num [normSq, vdot]]
    exact Real.sqrt_sq (by norm_num)
  have hns : mrfNormals tsTurn = [⟨0, -1, 0⟩, ⟨4 / 5, -3 / 5, 0⟩] := by
    rw [show tsTurn = (⟨1, 0, 0⟩ : Vec3) :: [⟨3 / 5, 4 / 5, 0⟩] from rfl]
    rw [mrfNormals, List.scanl_cons, List.scanl_nil]
    have h0 : vnormalize (mrfFirstRaw (⟨1, 0, 0⟩ : Vec3)) = ⟨0, -1, 0⟩ := by
      rw [show mrfFirstRaw (⟨1, 0, 0⟩ : Vec3) = ⟨0, -1, 0⟩ from by simp [mrfFirstRaw]]
      exact vnormalize_unit _ (by norm_num [normSq, vdot])
    rw [h0]
    have h1 : mrfStep (⟨0, -1, 0⟩ : Vec3) ⟨3 / 5, 4 / 5, 0⟩ = ⟨4 / 5, -3 / 5, 0⟩ := by
      rw [mrfStep, show vsub (⟨0, -1, 0⟩ : Vec3)
          (vsmul (vdot (⟨0, -1, 0⟩ : Vec3) ⟨3 / 5, 4 / 5, 0⟩) ⟨3 / 5, 4 / 5, 0⟩) =
          ⟨12 / 25, -9 / 25, 0⟩ from by
        ext <;> norm_num [vsub, vsmul, vdot]]
      rw [vnormalize, hnorm1]
      ext <;> norm_num [vdiv]
    rw [h1]
    rfl
  have hsm : (compute_MRF tsTurn).1.getD 0 vzero =
      vnormalize ⟨8 / 25, -21 / 25, 0⟩ := by
    rw [show (compute_MRF tsTurn).1 = smooth_vectors (mrfNormals tsTurn) 10 1 from rfl]
    rw [hns, smooth_vectors, Function.iterate_one, smooth_pass, smooth_pass_loop_eq_map]
    have hpe : padEdge [(⟨0, -1, 0⟩ : Vec3), ⟨4 / 5, -3 / 5, 0⟩] (10 / 2) =
        [⟨0, -1, 0⟩, ⟨0, -1, 0⟩, ⟨0, -1, 0⟩, ⟨0, -1, 0⟩, ⟨0, -1, 0⟩,
         ⟨0, -1, 0⟩, ⟨4 / 5, -3 / 5, 0⟩, ⟨4 / 5, -3 / 5, 0⟩, ⟨4 / 5, -3 / 5, 0⟩,
         ⟨4 / 5, -3 / 5, 0⟩, ⟨4 / 5, -3 / 5, 0⟩, ⟨4 / 5, -3 / 5, 0⟩] := by
      rw [padEdge]
      norm_num [List.replicate]
    rw [hpe]
    rw [show List.range ([(⟨0, -1, 0⟩ : Vec3), ⟨4 / 5, -3 / 5, 0⟩].length) = [0, 1] from rfl]
    simp only [List.map_cons, List.map_nil, List.getD_cons_zero]
    have hwin : windowAt 10
        [(⟨0, -1, 0⟩ : Vec3), ⟨0, -1, 0⟩, ⟨0, -1, 0⟩, ⟨0, -1, 0⟩, ⟨0, -1, 0⟩,
         ⟨0, -1, 0⟩, ⟨4 / 5, -3 / 5, 0⟩, ⟨4 / 5, -3 / 5, 0⟩, ⟨4 / 5, -3 / 5, 0⟩,
         ⟨4 / 5, -3 / 5, 0⟩, ⟨4 / 5, -3 / 5, 0⟩, ⟨4 / 5, -3 / 5, 0⟩] 0 =
        [⟨0, -1, 0⟩, ⟨0, -1, 0⟩, ⟨0, -1, 0⟩, ⟨0, -1, 0⟩, ⟨0, -1, 0⟩,
         ⟨0, -1, 0⟩, ⟨4 / 5, -3 / 5, 0⟩, ⟨4 / 5, -3 / 5, 0⟩, ⟨4 / 5, -3 / 5, 0⟩,
         ⟨4 / 5, -3 / 5, 0⟩] := rfl
    rw [hwin]
    congr 1
    ext <;> norm_num [vmean, vsum, vadd, vzero, vdiv]
  intro habs
  rw [hsm, vdot_vnormalize_right] at habs
  have hdotval : vdot (tsTurn.getD 0 vzero) (⟨8 / 25, -21 / 25, 0⟩ : Vec3) = 8 / 25 := by
    norm_num [tsTurn, vdot]
  rw [hdotval] at habs
  have hle1 : vnorm (⟨8 / 25, -21 / 25, 0⟩ : Vec3) ≤ 1 := by
    rw [vnorm]
    refine Real.sqrt_le_one.mpr ?_
    norm_num [normSq, vdot]
  have hpos : 0 < vnorm (⟨8 / 25, -21 / 25, 0⟩ : Vec3) := by
    rw [vnorm]
    refine Real.sqrt_pos.mpr ?_
    norm_num [normSq, vdot]
  have hge : (8 / 25 : ℝ) ≤ 8 / 25 / vnorm (⟨8 / 25, -21 / 25, 0⟩ : Vec3) := by
    rw [le_div_iff₀ hpos]
    nlinarith
  have habs' : 8 / 25 / vnorm (⟨8 / 25, -21 / 25, 0⟩ : Vec3) ≤
      |8 / 25 / vnorm (⟨8 / 25, -21 / 25, 0⟩ : Vec3)| := le_abs_self _
  linarith

theorem vsub_self_eq (a : Vec3) : vsub a a = vzero := by
  ext <;> simp [vsub, vzero]

theorem normSq_vzero : normSq vzero = 0 := by
  norm_num [normSq, vdot, vzero]

theorem vnorm_vzero : vnorm vzero = 0 := by
  rw [vnorm, normSq_vzero, Real.sqrt_zero]

theorem vnorm_pos (v : Vec3) (h : normSq v ≠ 0) : 0 < vnorm v :=
  Real.sqrt_pos.mpr (lt_of_le_of_ne (normSq_nonneg v) (Ne.symm h))

theorem getD_map_of_lt {α β : Type} (f : α → β) (l : List α) (i : ℕ)
    (h : i < l.length) (d : β) (d2 : α) :
    (l.map f).getD i d = f (l.getD i d2) := by
  rw [List.getD_eq_getElem _ _ (by simpa using h), List.getD_eq_getElem _ _ h]
  simp

theorem length_segNorms (pts : List Vec3) : (segNorms pts).length = pts.length - 1 := by
  simp [segNorms]

theorem segNorms_getD (pts : List Vec3) (i : ℕ) (h : i + 1 < pts.length) :
    (segNorms pts).getD i 0 = vnorm (vsub (pts.getD (i + 1) vzero) (pts.getD i vzero)) := by
  have h1 : i < (segNorms pts).length := by rw [length_segNorms]; omega
  have h2 : i < pts.tail.length := by simp; omega
  rw [List.getD_eq_getElem _ _ h1, List.getD_eq_getElem _ _ (by omega : i + 1 < pts.length),
    List.getD_eq_getElem _ _ (by omega : i < pts.length)]
  simp only [segNorms, List.getElem_zipWith, List.getElem_tail]

theorem length_cumdist (pts : List Vec3) : (cumdist pts).length = pts.length - 1 + 1 := by
  rw [cumdist, List.length_scanl, length_segNorms]

theorem scanl_add_getLastD :
    ∀ (l : List ℝ) (a d : ℝ), (List.scanl (fun u v => u + v) a l).getLastD d = a + l.sum := by
  intro l
  induction l with
  | nil =>
    intro a d
    simp [List.scanl_nil]
  | cons x l2 ih =>
    intro a d
    rw [List.scanl_cons, List.singleton_append, List.getLastD_cons, ih (a + x) a, List.sum_cons]
    ring

theorem scanl_head?_eq {α β : Type} (f : β → α → β) (c : β) (l : List α) :
    (List.scanl f c l).head? = some c := by
  cases l <;> simp [List.scanl_nil, List.scanl_cons]

theorem chain_lt_scanl_add :
    ∀ (l : List ℝ), (∀ x ∈ l, 0 < x) → ∀ a : ℝ,
      List.Chain' (fun u v => u < v) (List.scanl (fun u v => u + v) a l) := by
  intro l
  induction l with
  | nil =>
    intro _ a
    rw [List.scanl_nil]
    exact List.chain'_singleton a
  | cons x l2 ih =>
    intro h a
    rw [List.scanl_cons, List.singleton_append, List.chain'_cons']
    constructor
    · intro b hb
      rw [scanl_head?_eq] at hb
      obtain rfl : a + x = b := by simpa using hb
      have hx : 0 < x := h x (List.mem_cons_self x l2)
      linarith
    · exact ih (fun y hy => h y (List.mem_cons_of_mem x hy)) (a + x)

theorem segNorms_all_pos (pts : List Vec3)
    (hnc : ∀ i, i + 1 < pts.length →
      normSq (vsub (pts.getD (i + 1) vzero) (pts.getD i vzero)) ≠ 0) :
    ∀ s ∈ segNorms pts, 0 < s := by
  intro s hs
  obtain ⟨i, hi, rfl⟩ := List.mem_iff_getElem.mp hs
  have hib : i + 1 < pts.length := by
    rw [length_segNorms] at hi
    omega
  rw [← List.getD_eq_getElem _ (0 : ℝ) hi, segNorms_getD pts i hib]
  exact vnorm_pos _ (hnc i hib)

theorem cumdist_chain (pts : List Vec3)
    (hnc : ∀ i, i + 1 < pts.length →
      normSq (vsub (pts.getD (i + 1) vzero) (pts.getD i vzero)) ≠ 0) :
    List.Chain' (fun a b => a < b) (cumdist pts) :=
  chain_lt_scanl_add (segNorms pts) (segNorms_all_pos pts hnc) 0

theorem cumdist_total_pos (pts : List Vec3) (h2 : 2 ≤ pts.length)
    (hnc : ∀ i, i + 1 < pts.length →
      normSq (vsub (pts.getD (i + 1) vzero) (pts.getD i vzero)) ≠ 0) :
    0 < (cumdist pts).getLastD 0 := by
  rw [cumdist, scanl_add_getLastD, zero_add]
  refine List.sum_pos _ (segNorms_all_pos pts hnc) ?_
  intro hnil
  have hlen := length_segNorms pts
  rw [hnil] at hlen
  simp at hlen
  omega

theorem length_dnKnots (pts : List Vec3) : (dnKnots pts).length = pts.length - 1 + 1 := by
  rw [dnKnots, List.length_map, length_cumdist]

theorem dnKnots_chain (pts : List Vec3) (h2 : 2 ≤ pts.length)
    (hnc : ∀ i, i + 1 < pts.length →
      normSq (vsub (pts.getD (i + 1) vzero) (pts.getD i vzero)) ≠ 0) :
    List.Chain' (fun a b => a < b) (dnKnots pts) := by
  rw [dnKnots, List.chain'_map]
  exact (cumdist_chain pts hnc).imp
    (fun a b hab => (div_lt_div_iff_of_pos_right (cumdist_total_pos pts h2 hnc)).mpr hab)

theorem dnKnots_getD (pts : List Vec3) (i : ℕ) (hi : i < (cumdist pts).length) :
    (dnKnots pts).getD i 0 = (cumdist pts).getD i 0 / (cumdist pts).getLastD 0 := by
  rw [dnKnots, getD_map_of_lt _ _ i hi 0 0]

theorem dnKnots_zero (pts : List Vec3) : (dnKnots pts).getD 0 0 = 0 := by
  have hi : 0 < (cumdist pts).length := by rw [length_cumdist]; omega
  rw [dnKnots_getD pts 0 hi, cumdist, scanl_getD_zero, zero_div]

theorem dnKnots_last (pts : List Vec3) (h2 : 2 ≤ pts.length)
    (hnc : ∀ i, i + 1 < pts.length →
      normSq (vsub (pts.getD (i + 1) vzero) (pts.getD i vzero)) ≠ 0) :
    (dnKnots pts).getD (pts.length - 1) 0 = 1 := by
  have hlen : (cumdist pts).length = pts.length := by rw [length_cumdist]; omega
  have hi : pts.length - 1 < (cumdist pts).length := by omega
  rw [dnKnots_getD pts _ hi]
  have hne : cumdist pts ≠ [] := by
    intro h
    rw [h] at hlen
    simp at hlen
    omega
  have hlast : (cumdist pts).getD (pts.length - 1) 0 = (cumdist pts).getLastD 0 := by
    rw [getLastD_eq_getD _ _ hne, hlen]
  rw [hlast, div_self (ne_of_gt (cumdist_total_pos pts h2 hnc))]

theorem length_linspace (a b : ℝ) (n : ℕ) (h : n ≠ 1) : (linspace a b n).length = n := by
  rw [linspace, if_neg h]
  simp

theorem linspace_getD_zero (a b : ℝ) (n : ℕ) (h : 2 ≤ n) :
    (linspace a b n).getD 0 0 = a := by
  rw [linspace, if_neg (by omega : ¬ n = 1)]
  have h0 : (0 : ℕ) < (List.range n).length := by simp; omega
  rw [getD_map_of_lt _ _ 0 h0 0 0, List.getD_eq_getElem _ _ h0, List.getElem_range]
  norm_num

theorem linspace_getD_last (a b : ℝ) (n : ℕ) (h : 2 ≤ n) :
    (linspace a b n).getD (n - 1) 0 = b := by
  rw [linspace, if_neg (by omega : ¬ n = 1)]
  have hb : n - 1 < (List.range n).length := by simp; omega
  rw [getD_map_of_lt _ _ (n - 1) hb 0 0, List.getD_eq_getElem _ _ hb, List.getElem_range]
  have hcast : ((n - 1 : ℕ) : ℝ) = (n : ℝ) - 1 := by
    rw [Nat.cast_sub (by omega : 1 ≤ n)]
    norm_num
  have hne : (n : ℝ) - 1 ≠ 0 := by
    have h2r : (2 : ℝ) ≤ (n : ℝ) := by exact_mod_cast h
    linarith
  rw [hcast]
  field_simp

theorem interpolate_line_accepts (spl : List ℝ → List ℝ → ℝ → ℝ)
    (pts : List Vec3) (np : Option ℕ) (h2 : 2 ≤ pts.length)
    (hnc : ∀ i, i + 1 < pts.length →
      normSq (vsub (pts.getD (i + 1) vzero) (pts.getD i vzero)) ≠ 0) :
    interpolate_line spl pts np =
      Except.ok ((linspace 0 1 (np.getD pts.length)).map (fun t =>
        ⟨spl (dnKnots pts) (pts.map Vec3.x) t,
         spl (dnKnots pts) (pts.map Vec3.y) t,
         spl (dnKnots pts) (pts.map Vec3.z) t⟩)) := by
  rw [interpolate_line, if_neg]
  push_neg
  exact ⟨by omega, dnKnots_chain pts h2 hnc⟩

/-- C2: for every polyline of at least 2 points with no coincident
consecutive points and every requested count `N >= 2`, `interpolate_line`
accepts the input, returns exactly `N` points, and (given only the
interpolation property of the spline evaluator, guaranteed by the scipy
`CubicSpline`) the first and last output points equal the first
and last input points exactly. -/
theorem interpolate_line_count_and_endpoints (spl : List ℝ → List ℝ → ℝ → ℝ)
    (pts : List Vec3) (N : ℕ) (h2 : 2 ≤ pts.length)
    (hnc : ∀ i, i + 1 < pts.length →
      normSq (vsub (pts.getD (i + 1) vzero) (pts.getD i vzero)) ≠ 0)
    (hN : 2 ≤ N)
    (hspl : ∀ (xs ys : List ℝ), xs.length = ys.length →
      List.Chain' (fun a b => a < b) xs →
      ∀ i, i < xs.length → spl xs ys (xs.getD i 0) = ys.getD i 0) :
    ∃ out, interpolate_line spl pts (some N) = Except.ok out ∧
      out.length = N ∧
      out.getD 0 vzero = pts.getD 0 vzero ∧
      out.getD (N - 1) vzero = pts.getD (pts.length - 1) vzero := by
  have hacc := interpolate_line_accepts spl pts (some N) h2 hnc
  rw [show (some N).getD pts.length = N from rfl] at hacc
  have hch := dnKnots_chain pts h2 hnc
  have hdn : (dnKnots pts).length = pts.length := by
    rw [length_dnKnots]
    omega
  have hlin : (linspace 0 1 N).length = N := length_linspace 0 1 N (by omega)
  refine ⟨_, hacc, ?_, ?_, ?_⟩
  · rw [List.length_map, hlin]
  · have hl0 : (0 : ℕ) < (linspace 0 1 N).length := by omega
    rw [getD_map_of_lt _ _ 0 hl0 vzero 0, linspace_getD_zero 0 1 N hN]
    have hx := hspl (dnKnots pts) (pts.map Vec3.x) (by rw [hdn, List.length_map]) hch 0 (by omega)
    have hy := hspl (dnKnots pts) (pts.map Vec3.y) (by rw [hdn, List.length_map]) hch 0 (by omega)
    have hz := hspl (dnKnots pts) (pts.map Vec3.z) (by rw [hdn, List.length_map]) hch 0 (by omega)
    rw [dnKnots_zero] at hx hy hz
    rw [hx, hy, hz]
    rw [getD_map_of_lt Vec3.x pts 0 (by omega) 0 vzero,
      getD_map_of_lt Vec3.y pts 0 (by omega) 0 vzero,
      getD_map_of_lt Vec3.z pts 0 (by omega) 0 vzero]
  · have hlN : N - 1 < (linspace 0 1 N).length := by omega
    rw [getD_map_of_lt _ _ (N - 1) hlN vzero 0, linspace_getD_last 0 1 N hN]
    have hil : pts.length - 1 < (dnKnots pts).length := by omega
    have hx := hspl (dnKnots pts) (pts.map Vec3.x) (by rw [hdn, List.length_map]) hch
      (pts.length - 1) hil
    have hy := hspl (dnKnots pts) (pts.map Vec3.y) (by rw [hdn, List.length_map]) hch
      (pts.length - 1) hil
    have hz := hspl (dnKnots pts) (pts.map Vec3.z) (by rw [hdn, List.length_map]) hch
      (pts.length - 1) hil
    rw [dnKnots_last pts h2 hnc] at hx hy hz
    rw [hx, hy, hz]
    rw [getD_map_of_lt Vec3.x pts (pts.length - 1) (by omega) 0 vzero,
      getD_map_of_lt Vec3.y pts (pts.length - 1) (by omega) 0 vzero,
      getD_map_of_lt Vec3.z pts (pts.length - 1) (by omega) 0 vzero]

theorem splWitness_interp :
    ∀ (xs ys : List ℝ), xs.length = ys.length →
      List.Chain' (fun a b => a < b) xs →
      ∀ i, i < xs.length → splWitness xs ys (xs.getD i 0) = ys.getD i 0 := by
  intro xs
  induction xs with
  | nil =>
    intro ys _ _ i hi
    simp at hi
  | cons x xs2 ih =>
    intro ys hlen hch i hi
    cases ys with
    | nil => simp at hlen
    | cons y ys2 =>
      cases i with
      | zero =>
        rw [List.getD_cons_zero, List.getD_cons_zero]
        rw [show splWitness (x :: xs2) (y :: ys2) x =
          if x = x then y else splWitness xs2 ys2 x from rfl]
        rw [if_pos rfl]
      | succ j =>
        rw [List.getD_cons_succ, List.getD_cons_succ]
        have hj : j < xs2.length := by
          simp at hi
          omega
        have hmem : xs2.getD j 0 ∈ xs2 := by
          rw [List.getD_eq_getElem _ _ hj]
          exact List.getElem_mem hj
        have hlt : x < xs2.getD j 0 := by
          have hp : List.Pairwise (fun a b => a < b) (x :: xs2) :=
            List.chain'_iff_pairwise.mp hch
          exact (List.pairwise_cons.mp hp).1 _ hmem
        rw [show splWitness (x :: xs2) (y :: ys2) (xs2.getD j 0) =
          if xs2.getD j 0 = x then y else splWitness xs2 ys2 (xs2.getD j 0) from rfl]
        rw [if_neg (ne_of_gt hlt)]
        have hlen2 : xs2.length = ys2.length := by
          simp at hlen
          omega
        exact ih ys2 hlen2 hch.tail j hj

/-- Witness for the C2 theorem: the 2-point segment `pts2` resampled to
`N = 2` points with the table-lookup interpolant `splWitness`. -/
theorem interpolate_line_count_and_endpoints_witness :
    ∃ out, interpolate_line splWitness pts2 (some 2) = Except.ok out ∧
      out.length = 2 ∧
      out.getD 0 vzero = pts2.getD 0 vzero ∧
      out.getD (2 - 1) vzero = pts2.getD (pts2.length - 1) vzero := by
  refine interpolate_line_count_and_endpoints splWitness pts2 2 (by norm_num [pts2]) ?_
    le_rfl splWitness_interp
  intro i hi
  have hi0 : i = 0 := by
    simp only [pts2, List.length_cons, List.length_nil] at hi
    omega
  subst hi0
  norm_num [pts2, List.getD_cons_succ, List.getD_cons_zero, vsub, normSq, vdot, vzero]

/-- C7 (amended): `interpolate_line` does reject inputs with fewer than 2
points and inputs with a coincident consecutive pair (on a curve of
positive total length), but the error is the strictly-increasing-knots
`ValueError` of the spline library, not a dedicated
`DegenerateInputError`; and a requested point count of 1 is NOT rejected
(see the counterexample). -/
theorem interpolate_line_degenerate_error (spl : List ℝ → List ℝ → ℝ → ℝ)
    (pts : List Vec3) (np : Option ℕ)
    (h : pts.length < 2 ∨
      ((∃ i, i + 1 < pts.length ∧ pts.getD (i + 1) vzero = pts.getD i vzero) ∧
        0 < (cumdist pts).getLastD 0)) :
    interpolate_line spl pts np = Except.error "x must be strictly increasing" := by
  rw [interpolate_line, if_pos]
  rcases h with h | ⟨⟨i, hi, heq⟩, htot⟩
  · exact Or.inl h
  · refine Or.inr ?_
    intro hch
    have hlen : (dnKnots pts).length = pts.length := by
      rw [length_dnKnots]
      omega
    rw [List.chain'_iff_get] at hch
    have hb : i < (dnKnots pts).length - 1 := by omega
    have hlt := hch i hb
    have hcd : (cumdist pts).getD (i + 1) 0 = (cumdist pts).getD i 0 := by
      rw [cumdist, scanl_getD_succ (fun a d => a + d) 0 0 (segNorms pts) 0 i
        (by rw [length_segNorms]; omega)]
      rw [show List.scanl (fun a d => a + d) 0 (segNorms pts) = cumdist pts from rfl]
      rw [segNorms_getD pts i hi, heq, vsub_self_eq, vnorm_vzero, add_zero]
    have hdneq : (dnKnots pts).getD (i + 1) 0 = (dnKnots pts).getD i 0 := by
      rw [dnKnots_getD pts (i + 1) (by rw [length_cumdist]; omega),
        dnKnots_getD pts i (by rw [length_cumdist]; omega), hcd]
    rw [List.get_eq_getElem, List.get_eq_getElem] at hlt
    rw [← List.getD_eq_getElem _ (0 : ℝ) (by omega : i < (dnKnots pts).length),
      ← List.getD_eq_getElem _ (0 : ℝ) (by omega : i + 1 < (dnKnots pts).length)] at hlt
    rw [hdneq] at hlt
    exact lt_irrefl _ hlt

/-- Witness for the amended C7 theorem: a polyline with a duplicated
consecutive point is rejected with the strictly-increasing-knots error. -/
theorem interpolate_line_degenerate_error_witness :
    interpolate_line splWitness ptsDup none =
      Except.error "x must be strictly increasing" := by
  refine interpolate_line_degenerate_error splWitness ptsDup none (Or.inr ⟨⟨0, ?_, ?_⟩, ?_⟩)
  · norm_num [ptsDup]
  · norm_num [ptsDup, List.getD_cons_zero, List.getD_cons_succ]
  · have hseg : segNorms ptsDup = [0, 1] := by
      have h1 : vnorm (vsub (⟨0, 0, 0⟩ : Vec3) ⟨0, 0, 0⟩) = 0 := by
        rw [vsub_self_eq, vnorm_vzero]
      have h2 : vnorm (vsub (⟨1, 0, 0⟩ : Vec3) ⟨0, 0, 0⟩) = 1 := by
        rw [show vsub (⟨1, 0, 0⟩ : Vec3) ⟨0, 0, 0⟩ = ⟨1, 0, 0⟩ from by
          ext <;> norm_num [vsub]]
        exact vnorm_eq_one _ (by norm_num [normSq, vdot])
      simp [segNorms, ptsDup, h1, h2]
    rw [cumdist, hseg, scanl_add_getLastD]
    norm_num

/-- C7 (counterexample): resampling the valid 2-point segment `pts2` with
`num_points = 1` is not rejected: `interpolate_line` returns a single
point (`np.linspace(0, 1, 1)` is `[0.0]`), contradicting the claim that a
requested count of 1 raises a `DegenerateInputError`. -/
theorem interpolate_line_numpoints_one_counterexample :
    interpolate_line splWitness pts2 (some 1) = Except.ok [⟨0, 0, 0⟩] := by
  have hnc : ∀ i, i + 1 < pts2.length →
      normSq (vsub (pts2.getD (i + 1) vzero) (pts2.getD i vzero)) ≠ 0 := by
    intro i hi
    have hi0 : i = 0 := by
      simp only [pts2, List.length_cons, List.length_nil] at hi
      omega
    subst hi0
    norm_num [pts2, List.getD_cons_succ, List.getD_cons_zero, vsub, normSq, vdot, vzero]
  rw [interpolate_line_accepts splWitness pts2 (some 1) (by norm_num [pts2]) hnc]
  rw [show (some 1).getD pts2.length = 1 from rfl]
  rw [show linspace 0 1 1 = [0] from by rw [linspace, if_pos rfl]]
  have hseg : segNorms pts2 = [1] := by
    have h2 : vnorm (vsub (⟨1, 0, 0⟩ : Vec3) ⟨0, 0, 0⟩) = 1 := by
      rw [show vsub (⟨1, 0, 0⟩ : Vec3) ⟨0, 0, 0⟩ = ⟨1, 0, 0⟩ from by
        ext <;> norm_num [vsub]]
      exact vnorm_eq_one _ (by norm_num [normSq, vdot])
    simp [segNorms, pts2, h2]
  have hcd : cumdist pts2 = [0, 1] := by
    rw [cumdist, hseg, List.scanl_cons, List.scanl_nil]
    norm_num
  have hdn : dnKnots pts2 = [0, 1] := by
    rw [dnKnots, hcd]
    norm_num
  have hch2 : List.Chain' (fun a b => a < b) ([0, 1] : List ℝ) :=
    List.chain'_pair.mpr (by norm_num)
  have hx0 := splWitness_interp [0, 1] [0, 1] rfl hch2 0 (by norm_num)
  have hy0 := splWitness_interp [0, 1] [0, 0] rfl hch2 0 (by norm_num)
  simp only [List.getD_cons_zero] at hx0 hy0
  rw [hdn]
  rw [show pts2.map Vec3.x = [0, 1] from by simp [pts2]]
  rw [show pts2.map Vec3.y = [0, 0] from by simp [pts2]]
  rw [show pts2.map Vec3.z = [0, 0] from by simp [pts2]]
  rw [List.map_cons, List.map_nil, hx0, hy0]

theorem length_normal_rows (ts : List Vec3) (h : 1 ≤ ts.length) :
    (normal_rows ts).length = ts.length := by
  rw [show normal_rows ts = (rawTangents ts).map
    (fun v => if vnorm v < 1 / 1000000 then vzero else vnormalize v) from rfl]
  rw [List.length_map, length_rawTangents ts h]

/-- C8 (amended): no explicit `ZeroVectorError` exists anywhere in the
script.  When a finite-difference row cannot be normalized (norm below the
`1e-6` threshold), `compute_normal_vectors` silently substitutes the
`[0, 0, 0]` placeholder row (lines 91-100) and returns normally, with one
output row per input row; nothing is surfaced to the caller.  (Tangent
normalization in `compute_tangent_vectors` likewise divides without any
guard.) -/
theorem compute_normal_vectors_zero_placeholder (ts : List Vec3) (i : ℕ)
    (h : i + 1 < ts.length)
    (heq : ts.getD (i + 1) vzero = ts.getD i vzero) :
    (normal_rows ts).getD i vzero = vzero ∧
      (compute_normal_vectors ts).length = ts.length := by
  constructor
  · have hlen : i < (rawTangents ts).length := by
      rw [length_rawTangents ts (by omega)]
      omega
    rw [show normal_rows ts = (rawTangents ts).map
      (fun v => if vnorm v < 1 / 1000000 then vzero else vnormalize v) from rfl]
    rw [getD_map_of_lt _ _ i hlen vzero vzero]
    rw [rawTangents_getD_lt ts i h, heq, vsub_self_eq]
    rw [if_pos (by rw [vnorm_vzero]; norm_num)]
  · rw [compute_normal_vectors, length_smooth_vectors, length_normal_rows ts (by omega)]

/-- Witness for the amended C8 theorem at a concrete pair of equal tangents. -/
theorem compute_normal_vectors_zero_placeholder_witness :
    (normal_rows [⟨1, 0, 0⟩, ⟨1, 0, 0⟩]).getD 0 vzero = vzero ∧
      (compute_normal_vectors [⟨1, 0, 0⟩, ⟨1, 0, 0⟩]).length =
        ([⟨1, 0, 0⟩, ⟨1, 0, 0⟩] : List Vec3).length :=
  compute_normal_vectors_zero_placeholder [⟨1, 0, 0⟩, ⟨1, 0, 0⟩] 0 (by norm_num) rfl

/-- C8 (counterexample): for the constant tangent pair `(1,0,0), (1,0,0)`
every finite-difference row is the zero vector; `compute_normal_vectors`
does not raise any error but returns the placeholder zero rows, which then
pass unchanged through smoothing. -/
theorem compute_normal_vectors_counterexample :
    compute_normal_vectors [⟨1, 0, 0⟩, ⟨1, 0, 0⟩] = [vzero, vzero] := by
  have hzero : vnorm vzero < 1 / 1000000 := by
    rw [vnorm_vzero]
    norm_num
  have hnr : normal_rows [⟨1, 0, 0⟩, ⟨1, 0, 0⟩] = [vzero, vzero] := by
    rw [normal_rows]
    have hdif : diffs [(⟨1, 0, 0⟩ : Vec3), ⟨1, 0, 0⟩] = [vzero] := by
      simp [diffs, vsub_self_eq]
    rw [hdif]
    simp [hzero]
    exact fun _ => vnormalize_vzero
  rw [compute_normal_vectors, hnr]
  rw [show [(vzero : Vec3), vzero] = List.replicate 2 vzero from rfl]
  rw [smooth_vectors, Function.iterate_one, smooth_pass, smooth_pass_loop_eq_map]
  rw [List.length_replicate, padEdge_replicate 2 (10 / 2) vzero (by norm_num)]
  rw [show (2 + 2 * (10 / 2) : ℕ) = 12 from rfl]
  rw [show List.range 2 = [0, 1] from rfl]
  simp only [List.map_cons, List.map_nil]
  have hw0 : vnormalize (vmean (windowAt 10 (List.replicate 12 vzero) 0)) = vzero := by
    rw [windowAt, List.drop_replicate, List.take_replicate]
    rw [vmean_replicate _ _ (by decide)]
    exact vnormalize_vzero
  have hw1 : vnormalize (vmean (windowAt 10 (List.replicate 12 vzero) 1)) = vzero := by
    rw [windowAt, List.drop_replicate, List.take_replicate]
    rw [vmean_replicate _ _ (by decide)]
    exact vnormalize_vzero
  rw [hw0, hw1]
  rfl

theorem scanl_const_of_fix {α β : Type} (f : β → α → β) (b : β) (a : α) (hf : f b a = b) :
    ∀ k, List.scanl f b (List.replicate k a) = List.replicate (k + 1) b := by
  intro k
  induction k with
  | zero => simp [List.scanl_nil]
  | succ k ih =>
    rw [List.replicate_succ, List.scanl_cons, List.singleton_append, hf, ih]
    rfl

theorem zipWith_replicate_both {α β γ : Type} (f : α → β → γ) (a : α) (b : β) :
    ∀ k, List.zipWith f (List.replicate k a) (List.replicate k b) =
      List.replicate k (f a b) := by
  intro k
  induction k with
  | zero => rfl
  | succ k ih =>
    rw [List.replicate_succ, List.replicate_succ, List.zipWith_cons_cons, ih]
    rfl

theorem interpolate_line_id_of_knots (spl : List ℝ → List ℝ → ℝ → ℝ)
    (pts : List Vec3) (h2 : 2 ≤ pts.length)
    (hnc : ∀ i, i + 1 < pts.length →
      normSq (vsub (pts.getD (i + 1) vzero) (pts.getD i vzero)) ≠ 0)
    (hspl : ∀ (xs ys : List ℝ), xs.length = ys.length →
      List.Chain' (fun a b => a < b) xs →
      ∀ i, i < xs.length → spl xs ys (xs.getD i 0) = ys.getD i 0)
    (hq : linspace 0 1 pts.length = dnKnots pts) :
    interpolate_line spl pts none = Except.ok pts := by
  rw [interpolate_line_accepts spl pts none h2 hnc]
  rw [show (none : Option ℕ).getD pts.length = pts.length from rfl, hq]
  congr 1
  have hch := dnKnots_chain pts h2 hnc
  have hdnlen : (dnKnots pts).length = pts.length := by
    rw [length_dnKnots]
    omega
  refine List.ext_getElem (by rw [List.length_map, hdnlen]) ?_
  intro i h1 hip
  rw [List.getElem_map]
  have hib : i < (dnKnots pts).length := by
    rw [List.length_map] at h1
    exact h1
  rw [← List.getD_eq_getElem (dnKnots pts) 0 hib]
  have hx := hspl (dnKnots pts) (pts.map Vec3.x) (by rw [hdnlen, List.length_map]) hch i hib
  have hy := hspl (dnKnots pts) (pts.map Vec3.y) (by rw [hdnlen, List.length_map]) hch i hib
  have hz := hspl (dnKnots pts) (pts.map Vec3.z) (by rw [hdnlen, List.length_map]) hch i hib
  rw [hx, hy, hz]
  rw [getD_map_of_lt Vec3.x pts i hip 0 vzero, getD_map_of_lt Vec3.y pts i hip 0 vzero,
    getD_map_of_lt Vec3.z pts i hip 0 vzero]
  rw [List.getD_eq_getElem pts vzero hip]

theorem pts9_nc : ∀ i, i + 1 < pts9.length →
    normSq (vsub (pts9.getD (i + 1) vzero) (pts9.getD i vzero)) ≠ 0 := by
  intro i hi
  have hi10 : i < 10 := by
    simp only [pts9, List.length_cons, List.length_nil] at hi
    omega
  interval_cases i <;>
    norm_num [pts9, List.getD_cons_succ, List.getD_cons_zero, vsub, normSq, vdot, vzero]

theorem diffs_pts9 : diffs pts9 = List.replicate 10 ⟨1, 0, 0⟩ := by
  have hp : ∀ (a b : ℝ), b - a = 1 → vsub (⟨b, 0, 0⟩ : Vec3) ⟨a, 0, 0⟩ = ⟨1, 0, 0⟩ := by
    intro a b hab
    ext <;> simp [vsub]
    linarith
  show [vsub (⟨1, 0, 0⟩ : Vec3) ⟨0, 0, 0⟩, vsub (⟨2, 0, 0⟩ : Vec3) ⟨1, 0, 0⟩,
    vsub (⟨3, 0, 0⟩ : Vec3) ⟨2, 0, 0⟩, vsub (⟨4, 0, 0⟩ : Vec3) ⟨3, 0, 0⟩,
    vsub (⟨5, 0, 0⟩ : Vec3) ⟨4, 0, 0⟩, vsub (⟨6, 0, 0⟩ : Vec3) ⟨5, 0, 0⟩,
    vsub (⟨7, 0, 0⟩ : Vec3) ⟨6, 0, 0⟩, vsub (⟨8, 0, 0⟩ : Vec3) ⟨7, 0, 0⟩,
    vsub (⟨9, 0, 0⟩ : Vec3) ⟨8, 0, 0⟩, vsub (⟨10, 0, 0⟩ : Vec3) ⟨9, 0, 0⟩] =
    List.replicate 10 ⟨1, 0, 0⟩
  rw [hp 0 1 (by norm_num), hp 1 2 (by norm_num), hp 2 3 (by norm_num),
    hp 3 4 (by norm_num), hp 4 5 (by norm_num), hp 5 6 (by norm_num),
    hp 6 7 (by norm_num), hp 7 8 (by norm_num), hp 8 9 (by norm_num),
    hp 9 10 (by norm_num)]
  rfl

theorem segNorms_pts9 : segNorms pts9 = List.replicate 10 1 := by
  have hmap : segNorms pts9 = (diffs pts9).map vnorm := by
    rw [segNorms, diffs, List.map_zipWith]
  rw [hmap, diffs_pts9, List.map_replicate, vnorm_eq_one _ (by norm_num [normSq, vdot])]

theorem cumdist_pts9 : cumdist pts9 = [0, 1, 2, 3, 4, 5, 6, 7, 8, 9, 10] := by
  rw [cumdist, segNorms_pts9]
  rw [show List.replicate 10 (1 : ℝ) = [1, 1, 1, 1, 1, 1, 1, 1, 1, 1] from rfl]
  simp only [List.scanl_cons, List.scanl_nil, List.singleton_append]
  norm_num

theorem dnKnots_pts9 : dnKnots pts9 =
    [0, 1 / 10, 2 / 10, 3 / 10, 4 / 10, 5 / 10, 6 / 10, 7 / 10, 8 / 10, 9 / 10, 1] := by
  rw [dnKnots, cumdist_pts9]
  norm_num

theorem linspace_eleven : linspace 0 1 11 =
    [0, 1 / 10, 2 / 10, 3 / 10, 4 / 10, 5 / 10, 6 / 10, 7 / 10, 8 / 10, 9 / 10, 1] := by
  rw [linspace, if_neg (by norm_num)]
  rw [show List.range 11 = [0, 1, 2, 3, 4, 5, 6, 7, 8, 9, 10] from rfl]
  simp only [List.map_cons, List.map_nil]
  norm_num

/-- C9: for the 11 evenly spaced points on the straight segment from the
origin to `(10, 0, 0)`, the pipeline reproduces the input points exactly
(spline queries coincide with the knots), every tangent is `(1, 0, 0)`,
and the normals and binormals returned by `compute_MRF` are the constant
vectors `(0, -1, 0)` and `(0, 0, -1)`, each orthogonal to the tangent. -/
theorem straight_line_scenario (spl : List ℝ → List ℝ → ℝ → ℝ)
    (hspl : ∀ (xs ys : List ℝ), xs.length = ys.length →
      List.Chain' (fun a b => a < b) xs →
      ∀ i, i < xs.length → spl xs ys (xs.getD i 0) = ys.getD i 0) :
    interpolate_line spl pts9 none = Except.ok pts9 ∧
    compute_tangent_vectors pts9 = List.replicate 11 ⟨1, 0, 0⟩ ∧
    compute_MRF (compute_tangent_vectors pts9) =
      (List.replicate 11 ⟨0, -1, 0⟩, List.replicate 11 ⟨0, 0, -1⟩) ∧
    vdot ⟨1, 0, 0⟩ ⟨0, -1, 0⟩ = 0 ∧
    vdot ⟨1, 0, 0⟩ ⟨0, 0, -1⟩ = 0 := by
  have htan : compute_tangent_vectors pts9 = List.replicate 11 ⟨1, 0, 0⟩ := by
    have hraw : rawTangents pts9 = List.replicate 11 ⟨1, 0, 0⟩ := by
      rw [rawTangents, diffs_pts9, getLastD_replicate 10 _ _ (by norm_num)]
      rw [← List.replicate_succ']
    have hnall : normalizeAll (List.replicate 11 (⟨1, 0, 0⟩ : Vec3)) =
        List.replicate 11 ⟨1, 0, 0⟩ := by
      rw [normalizeAll, List.map_replicate,
        vnormalize_unit _ (by norm_num [normSq, vdot])]
    rw [compute_tangent_vectors, hraw, hnall]
    exact smooth_vectors_replicate 10 1 11 _ (by norm_num) (by norm_num [normSq, vdot])
  refine ⟨?_, htan, ?_, by norm_num [vdot], by norm_num [vdot]⟩
  · refine interpolate_line_id_of_knots spl pts9 (by norm_num [pts9]) pts9_nc hspl ?_
    rw [show pts9.length = 11 from rfl, linspace_eleven, dnKnots_pts9]
  · rw [htan]
    have hn0unit : normSq (⟨0, -1, 0⟩ : Vec3) = 1 := by norm_num [normSq, vdot]
    have hmrfn : mrfNormals (List.replicate 11 (⟨1, 0, 0⟩ : Vec3)) =
        List.replicate 11 ⟨0, -1, 0⟩ := by
      rw [show List.replicate 11 (⟨1, 0, 0⟩ : Vec3) =
        (⟨1, 0, 0⟩ : Vec3) :: List.replicate 10 ⟨1, 0, 0⟩ from rfl]
      rw [mrfNormals]
      have hn0 : vnormalize (mrfFirstRaw ⟨1, 0, 0⟩) = ⟨0, -1, 0⟩ := by
        rw [show mrfFirstRaw (⟨1, 0, 0⟩ : Vec3) = ⟨0, -1, 0⟩ from by simp [mrfFirstRaw]]
        exact vnormalize_unit _ hn0unit
      have hfix : mrfStep (⟨0, -1, 0⟩ : Vec3) ⟨1, 0, 0⟩ = ⟨0, -1, 0⟩ := by
        rw [mrfStep, show vsub (⟨0, -1, 0⟩ : Vec3)
          (vsmul (vdot (⟨0, -1, 0⟩ : Vec3) ⟨1, 0, 0⟩) ⟨1, 0, 0⟩) = ⟨0, -1, 0⟩ from by
          ext <;> norm_num [vsub, vsmul, vdot]]
        exact vnormalize_unit _ hn0unit
      rw [hn0, scanl_const_of_fix mrfStep _ _ hfix 10]
    have hmrfb : mrfBinormals (List.replicate 11 (⟨1, 0, 0⟩ : Vec3)) =
        List.replicate 11 ⟨0, 0, -1⟩ := by
      rw [mrfBinormals, hmrfn, zipWith_replicate_both]
      rw [show vcross (⟨1, 0, 0⟩ : Vec3) ⟨0, -1, 0⟩ = ⟨0, 0, -1⟩ from by
        ext <;> norm_num [vcross]]
    rw [compute_MRF, hmrfn, hmrfb]
    rw [smooth_vectors_replicate 10 1 11 _ (by norm_num) hn0unit]
    rw [smooth_vectors_replicate 10 1 11 _ (by norm_num) (by norm_num [normSq, vdot])]

/-- Witness for the C9 theorem: the spline hypothesis instantiated with
the table-lookup interpolant `splWitness`. -/
theorem straight_line_scenario_witness :
    interpolate_line splWitness pts9 none = Except.ok pts9 ∧
    compute_tangent_vectors pts9 = List.replicate 11 ⟨1, 0, 0⟩ ∧
    compute_MRF (compute_tangent_vectors pts9) =
      (List.replicate 11 ⟨0, -1, 0⟩, List.replicate 11 ⟨0, 0, -1⟩) ∧
    vdot ⟨1, 0, 0⟩ ⟨0, -1, 0⟩ = 0 ∧
    vdot ⟨1, 0, 0⟩ ⟨0, 0, -1⟩ = 0 :=
  straight_line_scenario splWitness splWitness_interp

end
